import Mathlib

/-!
Verification development for the obsirag backend (FastAPI service around a
LightRAG engine).  The definitions below are shallow embeddings of the code
in `backend/document_parser.py`, `backend/rag_engine.py` and
`backend/routes.py`.  Python strings are modelled as Lean `String`,
Python dicts as association lists with last-write-wins lookup, machine
integers as `Nat`/`Int`, and fallible code as `Except`.
-/

namespace Obsirag

/-- Lookup in an association list built by repeated `d[k] = v` assignments:
the latest binding for a key wins, mirroring Python dict construction by
iteration. -/
def dget (m : List (String × String)) (k : String) : Option String :=
  m.foldl (fun acc p => if p.1 = k then some p.2 else acc) none

/-- `dict.get(k, default)`. -/
def dgetD (m : List (String × String)) (k d : String) : String :=
  (dget m k).getD d

/-- Last element of a list with a default, structural version. -/
def lastD {α : Type} : List α → α → α
  | [], d => d
  | a :: l, _ => lastD l a

/-- Stable insertion: place `x` before the first element `y` with `le x y`
false... (x goes before y exactly when `le x y`).  Together with `stSort`
this is the unique stable sort for a total preorder, hence it models
Python's stable `list.sort`. -/
def stInsert {α : Type} (le : α → α → Bool) (x : α) : List α → List α
  | [] => [x]
  | y :: ys => if le x y then x :: y :: ys else y :: stInsert le x ys

/-- Stable sort (insertion sort), modelling Python `list.sort` with a
comparison key.  Stable: elements comparing equal keep their original
relative order. -/
def stSort {α : Type} (le : α → α → Bool) : List α → List α
  | [] => []
  | x :: xs => stInsert le x (stSort le xs)

/-- Descending comparison on a numeric key: `a` may come before `b`
exactly when `f b ≤ f a`. -/
def degLe {α : Type} (f : α → Nat) (a b : α) : Bool := decide (f b ≤ f a)

/-- The literal marker head `"[SOURCE_FILE: "`. -/
def srcHead : List Char := "[SOURCE_FILE: ".toList

/-- Try to strip a literal head from a character list, returning the
remainder exactly when the head matches. -/
def stripHead : List Char → List Char → Option (List Char)
  | [], l => some l
  | _ :: _, [] => none
  | p :: ps, c :: cs => if c = p then stripHead ps cs else none

/-- Continue a non-greedy capture after its first character: consume
characters up to the first `]` (which closes the match), failing on a
newline (Python `.` does not match `\n`). -/
def findCaptureGo : List Char → Option (List Char × List Char)
  | [] => none
  | d :: r =>
    if d = ']' then some ([], r)
    else if d = '\n' then none
    else
      match findCaptureGo r with
      | some (cap, rest) => some (d :: cap, rest)
      | none => none

/-- Non-greedy capture for `(.+?)\]`: at least one non-newline character,
then everything up to the first `]`.  Returns the capture and the text
after the closing bracket. -/
def findCapture : List Char → Option (List Char × List Char)
  | [] => none
  | c :: cs =>
    if c = '\n' then none
    else
      match findCaptureGo cs with
      | some (cap, rest) => some (c :: cap, rest)
      | none => none

/-- One left-to-right `findall` pass, fuelled for structural recursion:
try the pattern at the current position; on success emit the capture and
continue after the closing bracket, otherwise advance one character.
Fuel at least the list length is enough, since every step consumes at
least one character. -/
def scanAux : Nat → List Char → List (List Char)
  | 0, _ => []
  | _ + 1, [] => []
  | fuel + 1, c :: cs =>
    match stripHead srcHead (c :: cs) with
    | some rest =>
      match findCapture rest with
      | some (cap, rest') => cap :: scanAux fuel rest'
      | none => scanAux fuel cs
    | none => scanAux fuel cs

/-- `_SOURCE_PATTERN.findall(blob)`: the sequence of captured paths, in
order, possibly with duplicates. -/
def rawMatches (s : String) : List String :=
  (scanAux s.toList.length s.toList).map (fun cs => String.mk cs)

/-- First-occurrence deduplication, modelling
`list(dict.fromkeys(xs))`: keep each value the first time it is seen. -/
def dedupFirst (seen : List String) : List String → List String
  | [] => []
  | x :: xs => if x ∈ seen then dedupFirst seen xs else x :: dedupFirst (x :: seen) xs

/-- Source extraction from a context blob:
`list(dict.fromkeys(_SOURCE_PATTERN.findall(str(context))))`. -/
def extractSources (blob : String) : List String :=
  dedupFirst [] (rawMatches blob)

/-- The marker construction of `RagEngine.insert_document`:
`f"{_SOURCE_PREFIX}{file_path}{_SOURCE_SUFFIX}\n\n{text}"`.  This is the
`tag(text, path)` operation of the provenance marker protocol. -/
def tagSource (text file_path : String) : String :=
  "[SOURCE_FILE: " ++ file_path ++ "]" ++ "\n\n" ++ text

/-- Python whitespace, as stripped by `str.strip()`. -/
def isPyWs (c : Char) : Bool :=
  c = ' ' || c = '\t' || c = '\n' || c = '\r' || c = '\x0b' || c = '\x0c'

/-- `bool(text.strip())`: the text contains at least one non-whitespace
character. -/
def hasNonWs (s : String) : Bool := s.toList.any (fun c => !(isPyWs c))

/-- Basename of a posix path: the part after the last `/`. -/
def afterLastSlash (l : List Char) : List Char :=
  l.foldl (fun acc c => if c = '/' then [] else acc ++ [c]) []

/-- Index of the last `.` in a character list, if any. -/
def lastDotIdx (b : List Char) : Option Nat :=
  b.enum.foldl (fun acc p => if p.2 = '.' then some p.1 else acc) none

/-- `os.path.splitext(basename)[1]`: extension from the last dot, empty
when the only dots are leading dots (so `.bashrc` has no extension). -/
def splitextExt (b : List Char) : List Char :=
  match lastDotIdx b with
  | none => []
  | some j => if (b.take j).any (fun c => c ≠ '.') then b.drop j else []

/-- `os.path.splitext(path)[1].lower()`. -/
def extLower (path : String) : String :=
  String.mk ((splitextExt (afterLastSlash path.toList)).map Char.toLower)

/-- The pluggable per-format extractors; their behavior is external to
this core (spec section 1 treats them as collaborators), so the model
keys each registered extension to a parser kind and takes the extractor
outcomes as a parameter. -/
inductive ParserKind
  | markdown
  | pdf
  | docx
  | xlsx
  | image

/-- The `PARSERS` extension table of `document_parser.py`. -/
def PARSERS : List (String × ParserKind) :=
  [(".md", ParserKind.markdown), (".txt", ParserKind.markdown),
   (".pdf", ParserKind.pdf),
   (".docx", ParserKind.docx), (".doc", ParserKind.docx),
   (".xlsx", ParserKind.xlsx), (".xls", ParserKind.xlsx),
   (".png", ParserKind.image), (".jpg", ParserKind.image),
   (".jpeg", ParserKind.image), (".tiff", ParserKind.image),
   (".tif", ParserKind.image), (".bmp", ParserKind.image),
   (".webp", ParserKind.image)]

/-- `PARSERS.get(ext)`. -/
def parserFor (ext : String) : Option ParserKind :=
  (PARSERS.find? (fun p => p.1 == ext)).map (fun p => p.2)

/-- `parse_document(path)`: `ok none` when the extension is unsupported
or the extracted text is empty after stripping, `ok (some text)` on a
successful non-empty extraction, and `error` when the extractor raises
(wrapped as `RuntimeError(f"Failed to parse {path}: {e}")`). -/
def parse_document (run : ParserKind → String → Except String String)
    (path : String) : Except String (Option String) :=
  match parserFor (extLower path) with
  | none => Except.ok none
  | some k =>
    match run k path with
    | Except.ok text =>
      Except.ok (if text ≠ "" ∧ hasNonWs text = true then some text else none)
    | Except.error e => Except.error ("Failed to parse " ++ path ++ ": " ++ e)

/-- `parse_markdown` reads the file from disk; the filesystem is passed
as a map from path to contents, `none` meaning the open raises. -/
def parse_markdown (fs : String → Option String) (path : String) :
    Except String String :=
  match fs path with
  | some content => Except.ok content
  | none => Except.error "No such file or directory"

/-- Assemble an extractor family from a filesystem (for the text parser)
and opaque external converters for the remaining formats. -/
def mkRun (fs : String → Option String)
    (other : ParserKind → String → Except String String) :
    ParserKind → String → Except String String :=
  fun k p =>
    match k with
    | ParserKind.markdown => parse_markdown fs p
    | _ => other k p

/-- Split a character list on a separator, Python `str.split` style
(an empty input yields one empty component). -/
def splitOnChar (sep : Char) : List Char → List (List Char)
  | [] => [[]]
  | c :: cs =>
    let r := splitOnChar sep cs
    if c = sep then [] :: r
    else
      match r with
      | h :: t => (c :: h) :: t
      | [] => [[c]]

def splitSlash (s : String) : List String :=
  (splitOnChar '/' s.toList).map (fun l => String.mk l)

def commonPrefixLen : List String → List String → Nat
  | a :: as, b :: bs => if a = b then commonPrefixLen as bs + 1 else 0
  | _, _ => 0

def joinSlash : List String → String
  | [] => ""
  | h :: t => t.foldl (fun acc s => acc ++ "/" ++ s) h

/-- Models `os.path.relpath(path, start)` (posixpath) for absolute,
already-normalized inputs: split both on `/` dropping empty components,
strip the common prefix, and prepend one `..` per remaining start
component; same-directory inputs yield `"."`.  (CPython first applies
`abspath`, which is the identity on such inputs.) -/
def relpath (path start : String) : String :=
  let pl := (splitSlash path).filter (fun s => !(s == ""))
  let sl := (splitSlash start).filter (fun s => !(s == ""))
  let i := commonPrefixLen pl sl
  let rel := List.replicate (sl.length - i) ".." ++ pl.drop i
  if rel = [] then "." else joinSlash rel

/-- The shared `indexing_status` dict. -/
structure IndexingStatus where
  total : Nat
  indexed : Nat
  current_file : String
  running : Bool
  errors : List (String × String)

/-- Module-load value of `indexing_status` in `rag_engine.py`. -/
def indexing_status0 : IndexingStatus :=
  { total := 0, indexed := 0, current_file := "", running := false, errors := [] }

/-- The engine handle: `ready` models `self.rag is not None`; `docs`
records the texts handed to the external `ainsert` contract. -/
structure EngineState where
  ready : Bool
  docs : List String

/-- `RagEngine.insert_document`: raises when the engine is
uninitialized, otherwise ingests the marker-tagged text. -/
def insert_document (eng : EngineState) (text file_path : String) :
    Except String EngineState :=
  if eng.ready then
    Except.ok { eng with docs := eng.docs ++ [tagSource text file_path] }
  else Except.error "Engine not initialized"

/-- One iteration of the `for path in paths` loop of `_index_worker`,
returning the sequence of observable states it produces: after
`current_file` is set, after an error is appended (if any), and after
the `finally` increment of `indexed`. -/
def processFile (run : ParserKind → String → Except String String)
    (vault_path : String) (se : IndexingStatus × EngineState) (path : String) :
    List (IndexingStatus × EngineState) :=
  let s1 := { se.1 with current_file := path }
  match parse_document run path with
  | Except.ok (some text) =>
    -- `os.path.relpath(path, vault_path) if vault_path else path`:
    -- the empty string is the only falsy value here
    let rel_path := if vault_path = "" then path else relpath path vault_path
    match insert_document se.2 text rel_path with
    | Except.ok eng2 =>
      [(s1, se.2), ({ s1 with indexed := s1.indexed + 1 }, eng2)]
    | Except.error e =>
      [(s1, se.2),
       ({ s1 with errors := s1.errors ++ [(path, e)] }, se.2),
       ({ s1 with errors := s1.errors ++ [(path, e)], indexed := s1.indexed + 1 }, se.2)]
  | Except.ok none =>
    [(s1, se.2), ({ s1 with indexed := s1.indexed + 1 }, se.2)]
  | Except.error e =>
    [(s1, se.2),
     ({ s1 with errors := s1.errors ++ [(path, e)] }, se.2),
     ({ s1 with errors := s1.errors ++ [(path, e)], indexed := s1.indexed + 1 }, se.2)]

/-- The loop of `_index_worker` over the remaining paths, threading the
last state of each iteration into the next. -/
def stepsAux (run : ParserKind → String → Except String String)
    (vault_path : String) :
    (IndexingStatus × EngineState) → List String →
      List (IndexingStatus × EngineState)
  | _, [] => []
  | se, p :: ps =>
    let t := processFile run vault_path se p
    t ++ stepsAux run vault_path (lastD t se) ps

/-- Full observable-state trace of one `_index_worker(paths, vault_path)`
run from a given shared state: the four reset assignments
(`running`, `total`, `indexed`, `errors` — in source order), the
per-file states, then `running = False` and `current_file = ""`. -/
def index_worker_trace (run : ParserKind → String → Except String String)
    (paths : List String) (vault_path : String)
    (st0 : IndexingStatus) (eng0 : EngineState) :
    List (IndexingStatus × EngineState) :=
  let a := { st0 with running := true }
  let b := { a with total := paths.length }
  let c := { b with indexed := 0 }
  let d := { c with errors := [] }
  let body := stepsAux run vault_path (d, eng0) paths
  let fin := lastD body (d, eng0)
  let e := ({ fin.1 with running := false }, fin.2)
  let f := ({ e.1 with current_file := "" }, e.2)
  [(a, eng0), (b, eng0), (c, eng0), (d, eng0)] ++ body ++ [e, f]

/-- Final state after `_index_worker` completes. -/
def index_worker (run : ParserKind → String → Except String String)
    (paths : List String) (vault_path : String)
    (st0 : IndexingStatus) (eng0 : EngineState) :
    IndexingStatus × EngineState :=
  lastD (index_worker_trace run paths vault_path st0 eng0) (st0, eng0)

/-- A path fails extraction when `parse_document` raises on it. -/
def failsExtraction (run : ParserKind → String → Except String String)
    (p : String) : Bool :=
  match parse_document run p with
  | Except.error _ => true
  | Except.ok _ => false

/-- Extractor family for the C3 witness: extraction raises exactly on
`/v/b.md`. -/
def runW : ParserKind → String → Except String String :=
  fun _ p => if p = "/v/b.md" then Except.error "corrupt" else Except.ok "text"

def wPaths : List String := ["/v/a.md", "/v/b.md", "/v/c.xyz"]

/-- Filesystem for the scenario: one markdown file containing
`Hello world`. -/
def fsC2 : String → Option String :=
  fun p => if p = "/vault/notes/hello.md" then some "Hello world" else none

def runC2 : ParserKind → String → Except String String :=
  mkRun fsC2 (fun _ _ => Except.error "unavailable")

def pathsC2 : List String := ["/vault/notes/hello.md", "/vault/tool.exe"]

/-- Bool check that every status in a state list satisfies
`indexed ≤ total` (`0 ≤ indexed` holds by the counter being a natural
number that only ever starts at 0 and is incremented). -/
def allStatesOk (l : List (IndexingStatus × EngineState)) : Bool :=
  l.all (fun se => decide (se.1.indexed ≤ se.1.total))

def runNone : ParserKind → String → Except String String :=
  fun _ _ => Except.error "never invoked"

def paths5 : List String := ["a.xyz", "b.xyz", "c.xyz", "d.xyz", "e.xyz"]

def paths2 : List String := ["f.xyz", "g.xyz"]

structure HttpError where
  code : Nat
  detail : String

structure QueryResponse where
  answer : String
  mode : String
  sources : List String

/-- `RagEngine.query_with_sources`: the primary `aquery` call may raise
(propagated); the secondary context-only `naive`-mode call is wrapped in
`try/except: pass`, so its failure (or an empty / absent context) just
degrades `sources` to the empty list.  The two engine call outcomes are
passed in as parameters. -/
def query_with_sources (primary : Except String String)
    (secondary : Except String (Option String)) :
    Except String (String × List String) :=
  match primary with
  | Except.error e => Except.error e
  | Except.ok answer =>
    let sources :=
      match secondary with
      | Except.ok (some context) =>
        if context ≠ "" then extractSources context else []
      | Except.ok none => []
      | Except.error _ => []
    Except.ok (answer, sources)

/-- `routes.py::query_rag`: 503 when the engine is uninitialized or an
indexing batch is running (before any engine call); 502 when the engine
call raises or returns an empty answer; otherwise the answer with its
sources.  The second component counts the engine calls issued: the
primary is issued once past the guards, and the secondary only after
the primary succeeded. -/
def query_rag (engineReady : Bool) (running : Bool) (mode : String)
    (primary : Except String String)
    (secondary : Except String (Option String)) :
    Except HttpError QueryResponse × Nat :=
  if !engineReady then
    (Except.error { code := 503, detail := "Engine not initialized" }, 0)
  else if running then
    (Except.error { code := 503, detail := "Indexing in progress" }, 0)
  else
    let calls := 1 + (match primary with | Except.ok _ => 1 | Except.error _ => 0)
    match query_with_sources primary secondary with
    | Except.error e =>
      (Except.error { code := 502, detail := "LLM query failed: " ++ e }, calls)
    | Except.ok (answer, sources) =>
      if answer = "" then
        (Except.error { code := 502, detail := "LLM returned empty answer" }, calls)
      else
        (Except.ok { answer := answer, mode := mode, sources := sources }, calls)

def isHttp503 : Except HttpError QueryResponse → Bool
  | Except.error h => h.code == 503
  | Except.ok _ => false

def isHttp502 : Except HttpError QueryResponse → Bool
  | Except.error h => h.code == 502
  | Except.ok _ => false

def exceptFailed : Except String String → Bool
  | Except.error _ => true
  | Except.ok _ => false

structure GKeyEl where
  id : Option String
  attrName : Option String

structure GDataEl where
  key : Option String
  text : Option String

structure GNodeEl where
  id : Option String
  data : List GDataEl

structure GEdgeEl where
  source : Option String
  target : Option String
  data : List GDataEl

structure GGraphEl where
  nodes : List GNodeEl
  edges : List GEdgeEl

structure GraphMLDoc where
  keys : List GKeyEl
  graph : Option GGraphEl

/-- `keys[key.get("id","")] = key.get("attr.name", key.get("id",""))`,
built in document order (later declarations overwrite, via `dget`). -/
def buildKeys (ks : List GKeyEl) : List (String × String) :=
  ks.map (fun k => (k.id.getD "", k.attrName.getD (k.id.getD "")))

/-- `node_attrs(el)`: map each data child through the key table
(`keys.get(data.get("key",""), data.get("key",""))`) to
`data.text or ""`; `dget` gives the dict's last-write-wins lookup. -/
def elemAttrs (keys : List (String × String)) (ds : List GDataEl) :
    List (String × String) :=
  ds.map (fun d => (dgetD keys (d.key.getD "") (d.key.getD ""), d.text.getD ""))

structure GraphNode where
  id : String
  label : String
  type : String
  description : String

structure GraphEdge where
  source : String
  target : String
  label : String
  weight : Rat
deriving DecidableEq

structure GraphExport where
  nodes : List GraphNode
  edges : List GraphEdge
  statsEntities : Nat
  statsRelations : Nat

def digitsVal (l : List Char) : Nat :=
  l.foldl (fun acc c => acc * 10 + (c.toNat - 48)) 0

def allDigits (l : List Char) : Bool := l.all Char.isDigit

/-- Magnitude of a Python float literal, restricted to plain decimal
forms `digits`, `digits.`, `.digits`, `digits.digits`. -/
def pyFloatMag (cs : List Char) : Option Rat :=
  let intPart := cs.takeWhile (fun c => c != '.')
  let rest := cs.dropWhile (fun c => c != '.')
  match rest with
  | [] =>
    if intPart ≠ [] ∧ allDigits intPart = true then some ((digitsVal intPart : Nat) : Rat)
    else none
  | _ :: frac =>
    if allDigits intPart = true ∧ allDigits frac = true
        ∧ (intPart ≠ [] ∨ frac ≠ []) then
      some ((digitsVal intPart : Rat) + (digitsVal frac : Rat) / ((10 : Rat) ^ frac.length))
    else none

/-- Models `float(s)` on the weight strings of a GraphML file: optional
sign followed by a plain decimal.  Exotic accepted spellings of CPython
(`inf`, exponents, underscores, surrounding whitespace) are mapped to
`none` like any other `ValueError`; no claim depends on the numeric
value, only on whether conversion raises. -/
def pyFloat (s : String) : Option Rat :=
  match s.toList with
  | '-' :: rest => (pyFloatMag rest).map (fun q => -q)
  | '+' :: rest => pyFloatMag rest
  | rest => pyFloatMag rest

/-- `float(attrs.get("weight", 1.0) or 1.0)`: absent or empty-string
weights become `1.0`; a non-empty string is converted, raising
`ValueError` (propagated out of `get_graph` as a 500) when malformed. -/
def parseWeight (w : Option String) : Except String Rat :=
  match w with
  | none => Except.ok 1
  | some s =>
    if s = "" then Except.ok 1
    else
      match pyFloat s with
      | some q => Except.ok q
      | none => Except.error "could not convert string to float"

def materializeNode (keys : List (String × String)) (el : GNodeEl) : GraphNode :=
  let attrs := elemAttrs keys el.data
  { id := el.id.getD "", label := el.id.getD "",
    type := (dgetD attrs "entity_type" "UNKNOWN").toUpper,
    description := dgetD attrs "description" "" }

def materializeEdge (keys : List (String × String)) (el : GEdgeEl) :
    Except String GraphEdge :=
  let attrs := elemAttrs keys el.data
  match parseWeight (dget attrs "weight") with
  | Except.error e => Except.error e
  | Except.ok w =>
    Except.ok { source := el.source.getD "", target := el.target.getD "",
                label := dgetD attrs "keywords" (dgetD attrs "relation" ""),
                weight := w }

/-- The for-loop building `all_edges`, where a raise aborts the whole
route (`Except.error`). -/
def mapME {α β : Type} (f : α → Except String β) : List α → Except String (List β)
  | [] => Except.ok []
  | x :: xs =>
    match f x with
    | Except.error e => Except.error e
    | Except.ok y =>
      match mapME f xs with
      | Except.error e => Except.error e
      | Except.ok ys => Except.ok (y :: ys)

/-- The `degree` dict of `get_graph`: every edge adds 1 at its source id
and 1 at its target id, so a self-loop contributes 2 to its node. -/
def degreeOf (es : List GraphEdge) (id : String) : Nat :=
  es.foldl (fun d e =>
    d + (if e.source = id then 1 else 0) + (if e.target = id then 1 else 0)) 0

/-- Python slicing `l[:k]` for an `int` bound: nonnegative `k` takes the
first `k` elements; negative `k` drops `-k` elements from the end. -/
def pyTake {α : Type} (k : Int) (l : List α) : List α :=
  if 0 ≤ k then l.take k.toNat
  else l.take ((l.length : Int) + k).toNat

/-- `GET /graph?limit=`: parse the GraphML document (absent file or
absent graph element give the explicit empty result), materialize nodes
and edges, and when the node count exceeds `limit`, keep the first
`limit` nodes of the stable descending sort by degree and filter edges
to those whose both endpoints survive.  Stats are taken from the
returned collections. -/
def get_graph (doc : Option GraphMLDoc) (limit : Int) : Except String GraphExport :=
  match doc with
  | none => Except.ok { nodes := [], edges := [], statsEntities := 0, statsRelations := 0 }
  | some d =>
    match d.graph with
    | none => Except.ok { nodes := [], edges := [], statsEntities := 0, statsRelations := 0 }
    | some g =>
      let keys := buildKeys d.keys
      let all_nodes := g.nodes.map (materializeNode keys)
      match mapME (materializeEdge keys) g.edges with
      | Except.error e => Except.error e
      | Except.ok all_edges =>
        if limit < (all_nodes.length : Int) then
          let sorted := stSort (degLe (fun n => degreeOf all_edges n.id)) all_nodes
          let kept := pyTake limit sorted
          let keptIds := kept.map (fun n => n.id)
          let edges2 := all_edges.filter
            (fun e => keptIds.contains e.source && keptIds.contains e.target)
          Except.ok { nodes := kept, edges := edges2,
                      statsEntities := kept.length, statsRelations := edges2.length }
        else
          Except.ok { nodes := all_nodes, edges := all_edges,
                      statsEntities := all_nodes.length, statsRelations := all_edges.length }

/-- Node ids of a successful export (`[]` on a raise). -/
def exportNodeIds : Except String GraphExport → List String
  | Except.ok r => r.nodes.map (fun n => n.id)
  | Except.error _ => []

/-- Referential integrity of an export: every returned edge's source
and target id occur among the returned node ids (a raise returns no
edges, so it is vacuously intact). -/
def exportRefIntegrity : Except String GraphExport → Bool
  | Except.error _ => true
  | Except.ok r =>
    r.edges.all (fun e =>
      (r.nodes.map (fun n => n.id)).contains e.source
      && (r.nodes.map (fun n => n.id)).contains e.target)

/-- Stats consistency of an export with its returned collections. -/
def statsConsistent : Except String GraphExport → Bool
  | Except.error _ => true
  | Except.ok r =>
    (r.statsEntities == r.nodes.length) && (r.statsRelations == r.edges.length)

/-- The input document contains no dangling edge: every edge's source
and target id (after attribute defaulting) occurs among the node ids. -/
def edgesWellFormed : Option GraphMLDoc → Bool
  | none => true
  | some d =>
    match d.graph with
    | none => true
    | some g =>
      g.edges.all (fun e =>
        (g.nodes.map (fun n => n.id.getD "")).contains (e.source.getD "")
        && (g.nodes.map (fun n => n.id.getD "")).contains (e.target.getD ""))

/-- Modelled from the spec wording of C4 for refinement comparison:
degree as "the count of edges in which the node appears as source or
target" — a self-loop counts once here, where the code counts it
twice. -/
def specDegree (es : List GraphEdge) (id : String) : Nat :=
  es.countP (fun e => e.source == id || e.target == id)

/-- Modelled from the spec wording of C4: the node-id list the claim
predicts — stable descending sort by `specDegree`, then the first
`limit` nodes of the materialized node list. -/
def claimPrunedIds (doc : GraphMLDoc) (limit : Int) : List String :=
  match doc.graph with
  | none => []
  | some g =>
    let keys := buildKeys doc.keys
    let allNodes := g.nodes.map (materializeNode keys)
    match mapME (materializeEdge keys) g.edges with
    | Except.error _ => []
    | Except.ok es =>
      (pyTake limit (stSort (degLe (fun n => specDegree es n.id)) allNodes)).map
        (fun n => n.id)

/-- A one-node document with an edge referencing the absent node id
`b`. -/
def docC1 : GraphMLDoc :=
  { keys := [],
    graph := some { nodes := [ { id := some "a", data := [] } ],
                    edges := [ { source := some "a", target := some "b", data := [] } ] } }

/-- A two-node document whose single edge references both nodes. -/
def docWf : GraphMLDoc :=
  { keys := [],
    graph := some { nodes := [ { id := some "a", data := [] },
                               { id := some "b", data := [] } ],
                    edges := [ { source := some "a", target := some "b",
                                 data := [] } ] } }

/-- Three nodes `B`, `A`, `C` (in that order) with a self-loop on `A`
and an edge `B → C`. -/
def gC4 : GGraphEl :=
  { nodes := [ { id := some "B", data := [] },
               { id := some "A", data := [] },
               { id := some "C", data := [] } ],
    edges := [ { source := some "A", target := some "A", data := [] },
               { source := some "B", target := some "C", data := [] } ] }

def docC4 : GraphMLDoc := { keys := [], graph := some gC4 }

/-- The materialized edges of `docC4`. -/
def esC4 : List GraphEdge :=
  [ { source := "A", target := "A", label := "", weight := 1 },
    { source := "B", target := "C", label := "", weight := 1 } ]

/-! ### Theorems: helper lemmas first, then the claim theorems -/

theorem lastD_append {α : Type} (l₁ l₂ : List α) (d : α) :
    lastD (l₁ ++ l₂) d = lastD l₂ (lastD l₁ d) := by
  induction l₁ generalizing d with
  | nil => rfl
  | cons a l ih => simpa using ih a

theorem lastD_concat_two {α : Type} (l : List α) (x y d : α) :
    lastD (l ++ [x, y]) d = y := by
  rw [lastD_append]; rfl

theorem length_stInsert {α : Type} (le : α → α → Bool) (x : α) (l : List α) :
    (stInsert le x l).length = l.length + 1 := by
  induction l with
  | nil => rfl
  | cons y ys ih =>
    by_cases h : le x y = true
    · simp [stInsert, h]
    · simp [stInsert, h, ih]

theorem length_stSort {α : Type} (le : α → α → Bool) (l : List α) :
    (stSort le l).length = l.length := by
  induction l with
  | nil => rfl
  | cons x xs ih => simp [stSort, length_stInsert, ih]

theorem mem_stInsert {α : Type} (le : α → α → Bool) (x y : α) (l : List α) :
    y ∈ stInsert le x l ↔ y = x ∨ y ∈ l := by
  induction l with
  | nil => simp [stInsert]
  | cons z zs ih =>
    by_cases h : le x z = true
    · simp only [stInsert, if_pos h, List.mem_cons]
    · simp only [stInsert, if_neg h, List.mem_cons, ih]
      tauto

theorem mem_stSort {α : Type} (le : α → α → Bool) (x : α) (l : List α) :
    x ∈ stSort le l ↔ x ∈ l := by
  induction l with
  | nil => simp [stSort]
  | cons y ys ih => simp [stSort, mem_stInsert, ih]

theorem pairwise_stInsert {α : Type} (f : α → Nat) (x : α) (l : List α)
    (h : l.Pairwise (fun a b => f b ≤ f a)) :
    (stInsert (degLe f) x l).Pairwise (fun a b => f b ≤ f a) := by
  induction l with
  | nil => simp [stInsert]
  | cons y ys ih =>
    rcases List.pairwise_cons.mp h with ⟨hy, hys⟩
    by_cases hle : degLe f x y = true
    · have hxy : f y ≤ f x := by simpa [degLe] using hle
      simp only [stInsert, if_pos hle]
      refine List.pairwise_cons.mpr ⟨?_, h⟩
      intro z hz
      rcases List.mem_cons.mp hz with rfl | hz
      · exact hxy
      · exact le_trans (hy z hz) hxy
    · have hyx : f x ≤ f y := by
        have : ¬ f y ≤ f x := by simpa [degLe] using hle
        omega
      simp only [stInsert, hle, if_false]
      refine List.pairwise_cons.mpr ⟨?_, ih hys⟩
      intro z hz
      rcases (mem_stInsert _ x z ys).mp hz with rfl | hz
      · exact hyx
      · exact hy z hz

theorem pairwise_stSort {α : Type} (f : α → Nat) (l : List α) :
    (stSort (degLe f) l).Pairwise (fun a b => f b ≤ f a) := by
  induction l with
  | nil => simp [stSort]
  | cons x xs ih => exact pairwise_stInsert f x _ ih

theorem findCaptureGo_length {l cap rest : List Char}
    (h : findCaptureGo l = some (cap, rest)) : rest.length < l.length := by
  induction l generalizing cap rest with
  | nil => simp [findCaptureGo] at h
  | cons d r ih =>
    by_cases hd : d = ']'
    · simp [findCaptureGo, hd] at h
      rcases h with ⟨_, rfl⟩
      simp
    · by_cases hn : d = '\n'
      · simp [findCaptureGo, hd, hn] at h
      · simp only [findCaptureGo, if_neg hd, if_neg hn] at h
        cases hgo : findCaptureGo r with
        | none => rw [hgo] at h; simp at h
        | some pr =>
          rw [hgo] at h
          cases pr with
          | mk cap' rest' =>
            simp at h
            rcases h with ⟨_, rfl⟩
            have := ih hgo
            simp; omega

theorem findCapture_length {l cap rest : List Char}
    (h : findCapture l = some (cap, rest)) : rest.length < l.length := by
  cases l with
  | nil => simp [findCapture] at h
  | cons c cs =>
    by_cases hn : c = '\n'
    · simp [findCapture, hn] at h
    · simp only [findCapture, if_neg hn] at h
      cases hgo : findCaptureGo cs with
      | none => rw [hgo] at h; simp at h
      | some pr =>
        rw [hgo] at h
        cases pr with
        | mk cap' rest' =>
          simp at h
          rcases h with ⟨_, rfl⟩
          have := findCaptureGo_length hgo
          simp; omega

theorem stripHead_length {p l r : List Char}
    (h : stripHead p l = some r) : r.length ≤ l.length := by
  induction p generalizing l with
  | nil =>
    simp only [stripHead, Option.some.injEq] at h
    subst h; exact le_refl _
  | cons c cs ih =>
    cases l with
    | nil => simp [stripHead] at h
    | cons a as =>
      by_cases hc : a = c
      · simp only [stripHead, if_pos hc] at h
        have := ih h
        simp; omega
      · simp [stripHead, hc] at h

theorem scanAux_nil (n : Nat) : scanAux n [] = [] := by
  cases n <;> rfl

theorem scanAux_fuel (n : Nat) :
    ∀ (m : Nat) (l : List Char), l.length ≤ n → l.length ≤ m →
      scanAux n l = scanAux m l := by
  induction n with
  | zero =>
    intro m l hn _
    have : l = [] := List.length_eq_zero.mp (Nat.le_zero.mp hn)
    subst this
    rw [scanAux_nil, scanAux_nil]
  | succ n ih =>
    intro m l hn hm
    cases l with
    | nil => rw [scanAux_nil, scanAux_nil]
    | cons c cs =>
      cases m with
      | zero => simp at hm
      | succ m =>
        simp only [List.length_cons] at hn hm
        cases hstrip : stripHead srcHead (c :: cs) with
        | none =>
          simp only [scanAux, hstrip]
          exact ih m cs (by omega) (by omega)
        | some rest =>
          cases hcap : findCapture rest with
          | none =>
            simp only [scanAux, hstrip, hcap]
            exact ih m cs (by omega) (by omega)
          | some pr =>
            cases pr with
            | mk cap rest' =>
              simp only [scanAux, hstrip, hcap]
              have h1 : rest.length ≤ cs.length + 1 := stripHead_length hstrip
              have h2 : rest'.length < rest.length := findCapture_length hcap
              rw [ih m rest' (by omega) (by omega)]

theorem mem_dedupFirst (seen l : List String) (x : String) :
    x ∈ dedupFirst seen l ↔ x ∈ l ∧ x ∉ seen := by
  induction l generalizing seen with
  | nil => simp [dedupFirst]
  | cons y ys ih =>
    by_cases hy : y ∈ seen
    · simp only [dedupFirst, if_pos hy, ih]
      constructor
      · rintro ⟨h1, h2⟩
        exact ⟨List.mem_cons_of_mem _ h1, h2⟩
      · rintro ⟨h1, h2⟩
        rcases List.mem_cons.mp h1 with rfl | h1
        · exact absurd hy h2
        · exact ⟨h1, h2⟩
    · simp only [dedupFirst, if_neg hy]
      constructor
      · intro h
        rcases List.mem_cons.mp h with rfl | h
        · exact ⟨List.mem_cons_self _ _, hy⟩
        · rcases (ih (y :: seen)).mp h with ⟨h1, h2⟩
          simp at h2
          exact ⟨List.mem_cons_of_mem _ h1, h2.2⟩
      · rintro ⟨h1, h2⟩
        rcases List.mem_cons.mp h1 with rfl | h1
        · exact List.mem_cons_self _ _
        · by_cases hxy : x = y
          · subst hxy; exact List.mem_cons_self _ _
          · exact List.mem_cons_of_mem _
              ((ih (y :: seen)).mpr ⟨h1, by simp [hxy, h2]⟩)

theorem nodup_dedupFirst (seen l : List String) :
    (dedupFirst seen l).Nodup := by
  induction l generalizing seen with
  | nil => simp [dedupFirst]
  | cons y ys ih =>
    by_cases hy : y ∈ seen
    · simpa [dedupFirst, if_pos hy] using ih seen
    · simp only [dedupFirst, if_neg hy]
      refine List.nodup_cons.mpr ⟨?_, ih (y :: seen)⟩
      intro hmem
      rcases (mem_dedupFirst _ _ _).mp hmem with ⟨_, h2⟩
      exact h2 (List.mem_cons_self _ _)

theorem sublist_dedupFirst (seen l : List String) :
    List.Sublist (dedupFirst seen l) l := by
  induction l generalizing seen with
  | nil => simp [dedupFirst]
  | cons y ys ih =>
    by_cases hy : y ∈ seen
    · simpa [dedupFirst, if_pos hy] using (ih seen).cons y
    · simpa [dedupFirst, if_neg hy] using (ih (y :: seen)).cons₂ y

theorem tagSource_toList (text : String) :
    (tagSource text "notes/x.md").toList
      = "[SOURCE_FILE: notes/x.md]\n\n".toList ++ text.toList := rfl

theorem rawMatches_tag (text : String) :
    rawMatches (tagSource text "notes/x.md") = "notes/x.md" :: rawMatches text := by
  have hfuel : ("[SOURCE_FILE: notes/x.md]\n\n".toList ++ text.toList).length
      = text.toList.length + 27 := by
    rw [List.length_append]
    have h27 : ("[SOURCE_FILE: notes/x.md]\n\n".toList).length = 27 := rfl
    omega
  have step1 : rawMatches (tagSource text "notes/x.md")
      = (scanAux (text.toList.length + 27)
          ("[SOURCE_FILE: notes/x.md]\n\n".toList ++ text.toList)).map
            (fun cs => String.mk cs) := by
    unfold rawMatches
    rw [tagSource_toList, hfuel]
  have step2 : (scanAux (text.toList.length + 27)
          ("[SOURCE_FILE: notes/x.md]\n\n".toList ++ text.toList)).map
            (fun cs => String.mk cs)
      = "notes/x.md" :: (scanAux (text.toList.length + 24) text.toList).map
            (fun cs => String.mk cs) := rfl
  rw [step1, step2,
    scanAux_fuel (text.toList.length + 24) text.toList.length text.toList
      (by omega) (by omega)]
  rfl

/-- C5: `extractSources` is deterministic (running it twice on the same
blob yields the same sequence), its result has no duplicates and is a
subsequence of the raw match sequence containing exactly the matched
paths (first-seen order preserved); on a blob with markers for `a.md`,
`b.md`, `a.md` it yields exactly `["a.md", "b.md"]`. -/
theorem extract_sources_dedup_stable :
    (∀ blob : String,
      extractSources blob = extractSources blob
      ∧ (extractSources blob).Nodup
      ∧ List.Sublist (extractSources blob) (rawMatches blob)
      ∧ (∀ s : String, s ∈ extractSources blob ↔ s ∈ rawMatches blob))
    ∧ extractSources
        "[SOURCE_FILE: a.md]\nsome text\n[SOURCE_FILE: b.md]\nmore\n[SOURCE_FILE: a.md]"
      = ["a.md", "b.md"] := by
  constructor
  · intro blob
    refine ⟨rfl, nodup_dedupFirst _ _, sublist_dedupFirst _ _, ?_⟩
    intro s
    rw [extractSources, mem_dedupFirst]
    simp
  · decide

/-- C6: round-trip of the provenance marker protocol.  Tagging any text
with path `notes/x.md` produces `"[SOURCE_FILE: notes/x.md]\n\n<text>"`;
extraction on the tagged text alone always recovers `notes/x.md` first,
and recovers exactly the singleton `["notes/x.md"]` whenever the payload
text itself contains no marker. -/
theorem tag_round_trip :
    ∀ text : String,
      (extractSources (tagSource text "notes/x.md")).head? = some "notes/x.md"
      ∧ (rawMatches text = [] →
          extractSources (tagSource text "notes/x.md") = ["notes/x.md"]) := by
  intro text
  have h := rawMatches_tag text
  constructor
  · rw [extractSources, h]
    rfl
  · intro h0
    rw [extractSources, h, h0]
    rfl

/-- Witness for C6 at a concrete marker-free payload. -/
theorem tag_round_trip_wit :
    rawMatches "Hello world" = []
    ∧ extractSources (tagSource "Hello world" "notes/x.md") = ["notes/x.md"] :=
  ⟨by decide, (tag_round_trip "Hello world").2 (by decide)⟩

theorem processFile_last_props (run : ParserKind → String → Except String String)
    (vault : String) (se : IndexingStatus × EngineState) (p : String)
    (h : se.2.ready = true) :
    (lastD (processFile run vault se p) se).1.indexed = se.1.indexed + 1
    ∧ (lastD (processFile run vault se p) se).1.errors.length
        = se.1.errors.length + (if failsExtraction run p = true then 1 else 0)
    ∧ (lastD (processFile run vault se p) se).2.ready = true := by
  cases hpd : parse_document run p with
  | ok o =>
    cases o with
    | some text =>
      have hins : insert_document se.2 text (if vault = "" then p else relpath p vault)
          = Except.ok { se.2 with
              docs := se.2.docs ++ [tagSource text (if vault = "" then p else relpath p vault)] } := by
        simp [insert_document, h]
      simp [processFile, failsExtraction, hpd, hins, lastD, h]
    | none => simp [processFile, failsExtraction, hpd, lastD, h]
  | error e => simp [processFile, failsExtraction, hpd, lastD, h]

theorem processFile_last_basic (run : ParserKind → String → Except String String)
    (vault : String) (se : IndexingStatus × EngineState) (p : String) :
    (lastD (processFile run vault se p) se).1.indexed = se.1.indexed + 1
    ∧ (lastD (processFile run vault se p) se).1.total = se.1.total := by
  cases hpd : parse_document run p with
  | ok o =>
    cases o with
    | some text =>
      cases hins : insert_document se.2 text (if vault = "" then p else relpath p vault) with
      | ok eng2 => simp [processFile, hpd, hins, lastD]
      | error e => simp [processFile, hpd, hins, lastD]
    | none => simp [processFile, hpd, lastD]
  | error e => simp [processFile, hpd, lastD]

theorem processFile_mem (run : ParserKind → String → Except String String)
    (vault : String) (se : IndexingStatus × EngineState) (p : String) :
    ∀ x ∈ processFile run vault se p,
      x.1.total = se.1.total ∧ x.1.indexed ≤ se.1.indexed + 1 := by
  intro x hx
  cases hpd : parse_document run p with
  | ok o =>
    cases o with
    | some text =>
      cases hins : insert_document se.2 text (if vault = "" then p else relpath p vault) with
      | ok eng2 =>
        simp [processFile, hpd, hins] at hx
        rcases hx with rfl | rfl <;> simp
      | error e =>
        simp [processFile, hpd, hins] at hx
        rcases hx with rfl | rfl | rfl <;> simp
    | none =>
      simp [processFile, hpd] at hx
      rcases hx with rfl | rfl <;> simp
  | error e =>
    simp [processFile, hpd] at hx
    rcases hx with rfl | rfl | rfl <;> simp

theorem stepsAux_last (run : ParserKind → String → Except String String)
    (vault : String) (ps : List String) :
    ∀ se : IndexingStatus × EngineState, se.2.ready = true →
      (lastD (stepsAux run vault se ps) se).1.indexed = se.1.indexed + ps.length
      ∧ (lastD (stepsAux run vault se ps) se).1.errors.length
          = se.1.errors.length + ps.countP (failsExtraction run)
      ∧ (lastD (stepsAux run vault se ps) se).2.ready = true := by
  induction ps with
  | nil => intro se h; simp [stepsAux, lastD, h]
  | cons p ps ih =>
    intro se h
    have hlast := processFile_last_props run vault se p h
    simp only [stepsAux]
    rw [lastD_append]
    have ih' := ih (lastD (processFile run vault se p) se) hlast.2.2
    refine ⟨?_, ?_, ih'.2.2⟩
    · rw [ih'.1, hlast.1]
      simp [List.length_cons]
      omega
    · rw [ih'.2.1, hlast.2.1]
      by_cases hf : failsExtraction run p = true
      · simp [hf, List.countP_cons]
        omega
      · simp [hf, List.countP_cons]

theorem stepsAux_last_basic (run : ParserKind → String → Except String String)
    (vault : String) (ps : List String) :
    ∀ se : IndexingStatus × EngineState,
      (lastD (stepsAux run vault se ps) se).1.indexed = se.1.indexed + ps.length
      ∧ (lastD (stepsAux run vault se ps) se).1.total = se.1.total := by
  induction ps with
  | nil => intro se; simp [stepsAux, lastD]
  | cons p ps ih =>
    intro se
    have hlast := processFile_last_basic run vault se p
    simp only [stepsAux]
    rw [lastD_append]
    have ih' := ih (lastD (processFile run vault se p) se)
    refine ⟨?_, ?_⟩
    · rw [ih'.1, hlast.1]
      simp [List.length_cons]
      omega
    · rw [ih'.2, hlast.2]

theorem stepsAux_mem (run : ParserKind → String → Except String String)
    (vault : String) (ps : List String) :
    ∀ se : IndexingStatus × EngineState,
      se.1.indexed + ps.length ≤ se.1.total →
      ∀ x ∈ stepsAux run vault se ps, x.1.indexed ≤ x.1.total := by
  induction ps with
  | nil => intro se _ x hx; simp [stepsAux] at hx
  | cons p ps ih =>
    intro se h x hx
    simp only [stepsAux, List.mem_append] at hx
    simp only [List.length_cons] at h
    rcases hx with hx | hx
    · rcases processFile_mem run vault se p x hx with ⟨ht, hi⟩
      rw [ht]
      omega
    · have hb := processFile_last_basic run vault se p
      exact ih (lastD (processFile run vault se p) se)
        (by rw [hb.1, hb.2]; omega) x hx

theorem lastD_trace_shape {α : Type} (x1 x2 x3 x4 e f d : α) (body : List α) :
    lastD ([x1, x2, x3, x4] ++ body ++ [e, f]) d = f := by
  rw [lastD_append, lastD_append]
  rfl

theorem eraseIdx_trace_shape {α : Type} (x1 x2 x3 x4 e f : α) (body : List α) :
    ([x1, x2, x3, x4] ++ body ++ [e, f]).eraseIdx 1
      = x1 :: x3 :: x4 :: (body ++ [e, f]) := rfl

theorem index_worker_eq (run : ParserKind → String → Except String String)
    (paths : List String) (vault : String)
    (st0 : IndexingStatus) (eng0 : EngineState) :
    index_worker run paths vault st0 eng0
      = (let d : IndexingStatus :=
           { st0 with running := true, total := paths.length,
                      indexed := 0, errors := [] }
         let fin := lastD (stepsAux run vault (d, eng0) paths) (d, eng0)
         ({ fin.1 with running := false, current_file := "" }, fin.2)) := by
  simp only [index_worker, index_worker_trace, lastD_trace_shape]

/-- C3: for every batch and every extractor family, after the worker
completes, `indexed` equals the number of paths in the batch and the
errors sequence has exactly one entry per path whose extraction raised,
wherever the failing paths occur — one bad file never aborts the batch. -/
theorem index_batch_counts (run : ParserKind → String → Except String String)
    (paths : List String) (vault : String)
    (st0 : IndexingStatus) (eng0 : EngineState) (h : eng0.ready = true) :
    (index_worker run paths vault st0 eng0).1.indexed = paths.length
    ∧ (index_worker run paths vault st0 eng0).1.errors.length
        = paths.countP (failsExtraction run) := by
  rw [index_worker_eq]
  have hs := stepsAux_last run vault paths
    (({ st0 with running := true, total := paths.length,
                 indexed := 0, errors := [] } : IndexingStatus), eng0) h
  constructor
  · simpa using hs.1
  · simpa using hs.2.1

/-- Witness for C3: a concrete three-file batch whose middle file fails
extraction. -/
theorem index_batch_counts_wit :
    ({ ready := true, docs := [] } : EngineState).ready = true
    ∧ ((index_worker runW wPaths "/v" indexing_status0
          { ready := true, docs := [] }).1.indexed = wPaths.length
       ∧ (index_worker runW wPaths "/v" indexing_status0
          { ready := true, docs := [] }).1.errors.length
          = wPaths.countP (failsExtraction runW)) :=
  ⟨rfl, index_batch_counts runW wPaths "/v" indexing_status0
    { ready := true, docs := [] } rfl⟩

/-- Counterexample to C2: indexing the two-file batch (one markdown file
with `Hello world`, one `.exe`) completes with `indexed = 2` but the
errors sequence is empty — length `0`, not `1` as the claim states:
an unsupported extension makes `parse_document` return the no-text
sentinel, which the worker skips without recording an error. -/
theorem index_two_files_errors_cex :
    (index_worker runC2 pathsC2 "/vault" indexing_status0
      { ready := true, docs := [] }).1.indexed = 2
    ∧ (index_worker runC2 pathsC2 "/vault" indexing_status0
      { ready := true, docs := [] }).1.errors.length = 0 := by decide

/-- C2 as amended: the batch completes with `indexed = 2` and an empty
errors sequence, and the markdown file is ingested under its path
relative to the vault root with its source marker intact. -/
theorem index_two_files_scenario :
    (index_worker runC2 pathsC2 "/vault" indexing_status0
      { ready := true, docs := [] }).1.indexed = 2
    ∧ (index_worker runC2 pathsC2 "/vault" indexing_status0
      { ready := true, docs := [] }).1.errors = []
    ∧ (index_worker runC2 pathsC2 "/vault" indexing_status0
      { ready := true, docs := [] }).2.docs
      = ["[SOURCE_FILE: notes/hello.md]\n\nHello world"] := by decide

/-- Counterexample to C9: run a five-file batch to completion
(`indexed = total = 5`), then start a two-file batch.  The observable
state between the `total = 2` write and the `indexed = 0` write has
`indexed = 5 > total = 2`, so the invariant does not hold in every
observable state. -/
theorem status_invariant_cex :
    allStatesOk (index_worker_trace runNone paths2 ""
      (index_worker runNone paths5 "" indexing_status0
        { ready := true, docs := [] }).1
      (index_worker runNone paths5 "" indexing_status0
        { ready := true, docs := [] }).2) = false := by decide

/-- C9 as amended: starting from any state with `indexed ≤ total`
(such as the initial state or the final state of a previous batch),
every observable state of a worker run satisfies `indexed ≤ total`
except the single instant after `total` is reassigned and before
`indexed` is reset to 0, where a previous larger batch's count can
exceed the new total (removed here as index 1 of the trace). -/
theorem status_invariant_amended
    (run : ParserKind → String → Except String String)
    (paths : List String) (vault : String)
    (st0 : IndexingStatus) (eng0 : EngineState)
    (h : st0.indexed ≤ st0.total) :
    allStatesOk ((index_worker_trace run paths vault st0 eng0).eraseIdx 1)
      = true := by
  unfold allStatesOk
  rw [List.all_eq_true]
  intro se hm
  simp only [decide_eq_true_eq]
  have hd : ∀ x ∈ stepsAux run vault
      (({ st0 with
          running := true, total := paths.length, indexed := 0,
          errors := [] } : IndexingStatus), eng0) paths,
      x.1.indexed ≤ x.1.total := by
    intro x hx
    exact stepsAux_mem run vault paths _ (by simp) x hx
  have hfin := stepsAux_last_basic run vault paths
    (({ st0 with
        running := true, total := paths.length, indexed := 0,
        errors := [] } : IndexingStatus), eng0)
  simp only [index_worker_trace] at hm
  rw [eraseIdx_trace_shape] at hm
  rcases List.mem_cons.mp hm with rfl | hm
  · simpa using h
  rcases List.mem_cons.mp hm with rfl | hm
  · simp
  rcases List.mem_cons.mp hm with rfl | hm
  · simp
  rcases List.mem_append.mp hm with hm | hm
  · exact hd se hm
  rcases List.mem_cons.mp hm with rfl | hm
  · simp only []
    have h1 := hfin.1
    have h2 := hfin.2
    simp only [] at h1 h2
    simp [h1, h2]
  rcases List.mem_cons.mp hm with rfl | hm
  · have h1 := hfin.1
    have h2 := hfin.2
    simp [h1, h2]
  · simp at hm

/-- Witness for the amended C9 at a concrete run. -/
theorem status_invariant_amended_wit :
    indexing_status0.indexed ≤ indexing_status0.total
    ∧ allStatesOk ((index_worker_trace runNone paths2 "" indexing_status0
        { ready := true, docs := [] }).eraseIdx 1) = true :=
  ⟨by decide, status_invariant_amended runNone paths2 "" indexing_status0
    { ready := true, docs := [] } (by decide)⟩

/-- C7: whenever the shared status has `running = true`, the query route
answers with a 503 service-unavailable error and issues zero engine
calls, for every engine-readiness state, mode, and engine outcome. -/
theorem query_rejected_while_running (engineReady : Bool) (mode : String)
    (primary : Except String String)
    (secondary : Except String (Option String)) :
    isHttp503 (query_rag engineReady true mode primary secondary).1 = true
    ∧ (query_rag engineReady true mode primary secondary).2 = 0 := by
  cases engineReady <;> simp [query_rag, isHttp503]

/-- C8: the secondary context-only query failing is non-fatal — the
answer is still returned with an empty source list — and the route
fails with a 502 bad-gateway exactly when the primary call fails or the
engine returns an empty answer. -/
theorem query_failure_modes (mode : String)
    (primary : Except String String)
    (secondary : Except String (Option String)) :
    (isHttp502 (query_rag true false mode primary secondary).1 = true
      ↔ (exceptFailed primary = true ∨ primary = Except.ok ""))
    ∧ (∀ a err, primary = Except.ok a → a ≠ "" →
        secondary = Except.error err →
        (query_rag true false mode primary secondary).1
          = Except.ok { answer := a, mode := mode, sources := [] }) := by
  constructor
  · cases primary with
    | error e => simp [query_rag, query_with_sources, isHttp502, exceptFailed]
    | ok a =>
      by_cases ha : a = ""
      · subst ha
        simp [query_rag, query_with_sources, isHttp502, exceptFailed]
      · simp [query_rag, query_with_sources, isHttp502, exceptFailed, ha]
  · rintro a err rfl ha rfl
    simp [query_rag, query_with_sources, ha]

/-- Witness for C8: concrete primary success with secondary failure. -/
theorem query_failure_modes_wit :
    (query_rag true false "hybrid" (Except.ok "the answer")
        (Except.error "naive query boom")).1
      = Except.ok { answer := "the answer", mode := "hybrid", sources := [] } :=
  (query_failure_modes "hybrid" (Except.ok "the answer")
    (Except.error "naive query boom")).2 "the answer" "naive query boom"
    rfl (by decide) rfl

theorem materializeEdge_fields (keys : List (String × String)) (el : GEdgeEl)
    (e : GraphEdge) (h : materializeEdge keys el = Except.ok e) :
    e.source = el.source.getD "" ∧ e.target = el.target.getD "" := by
  simp only [materializeEdge] at h
  cases hw : parseWeight (dget (elemAttrs keys el.data) "weight") with
  | error er => rw [hw] at h; simp at h
  | ok w =>
    rw [hw] at h
    simp only [Except.ok.injEq] at h
    subst h
    exact ⟨rfl, rfl⟩

theorem mapME_endpoints (keys : List (String × String)) :
    ∀ (els : List GEdgeEl) (es : List GraphEdge),
      mapME (materializeEdge keys) els = Except.ok es →
      ∀ e ∈ es, ∃ el ∈ els,
        e.source = el.source.getD "" ∧ e.target = el.target.getD "" := by
  intro els
  induction els with
  | nil =>
    intro es h e he
    simp only [mapME, Except.ok.injEq] at h
    subst h
    simp at he
  | cons el els ih =>
    intro es h e he
    cases hme : materializeEdge keys el with
    | error er => simp [mapME, hme] at h
    | ok e1 =>
      cases hrest : mapME (materializeEdge keys) els with
      | error er => simp [mapME, hme, hrest] at h
      | ok es1 =>
        simp only [mapME, hme, hrest, Except.ok.injEq] at h
        subst h
        rcases List.mem_cons.mp he with rfl | he
        · exact ⟨el, List.mem_cons_self _ _, materializeEdge_fields keys el e hme⟩
        · rcases ih es1 hrest e he with ⟨el2, hel2, hsrc, htgt⟩
          exact ⟨el2, List.mem_cons_of_mem _ hel2, hsrc, htgt⟩

theorem materializeNode_ids (keys : List (String × String)) (g : GGraphEl) :
    (g.nodes.map (materializeNode keys)).map (fun n => n.id)
      = g.nodes.map (fun n => n.id.getD "") := by
  rw [List.map_map]
  rfl

/-- C10: on every return path of the graph export (missing file,
missing graph element, weight parse failure, pruned or unpruned
result), the returned stats agree with the returned collections:
`stats.entities` is the node count and `stats.relations` the edge
count. -/
theorem graph_stats_consistent (doc : Option GraphMLDoc) (limit : Int) :
    statsConsistent (get_graph doc limit) = true := by
  cases doc with
  | none => rfl
  | some d =>
    cases hg : d.graph with
    | none => simp [get_graph, hg, statsConsistent]
    | some g =>
      cases hm : mapME (materializeEdge (buildKeys d.keys)) g.edges with
      | error e => simp [get_graph, hg, hm, statsConsistent]
      | ok es =>
        by_cases hlt : limit < ((g.nodes.map (materializeNode (buildKeys d.keys))).length : Int)
        · simp only [get_graph, hg, hm, if_pos hlt, statsConsistent]
          simp
        · simp only [get_graph, hg, hm, if_neg hlt, statsConsistent]
          simp

/-- Counterexample to C1: when the node count does not exceed the
limit, `get_graph` returns the edge list unfiltered, so an input file
containing a dangling edge is exported with an edge whose target id is
absent from the returned node list. -/
theorem graph_export_dangling_edge_cex :
    exportRefIntegrity (get_graph (some docC1) 300) = false := by decide

/-- C1 as amended: for every input graph file in which every edge
references ids present among the file's nodes, and every limit, the
export never returns an edge whose source or target is absent from the
returned node list.  (When pruning triggers, integrity holds even
without the hypothesis: the surviving edges are filtered against the
kept ids.) -/
theorem graph_export_ref_integrity (doc : Option GraphMLDoc) (limit : Int)
    (h : edgesWellFormed doc = true) :
    exportRefIntegrity (get_graph doc limit) = true := by
  cases doc with
  | none => rfl
  | some d =>
    cases hg : d.graph with
    | none => simp [get_graph, hg, exportRefIntegrity]
    | some g =>
      cases hm : mapME (materializeEdge (buildKeys d.keys)) g.edges with
      | error e => simp [get_graph, hg, hm, exportRefIntegrity]
      | ok es =>
        by_cases hlt : limit < ((g.nodes.map (materializeNode (buildKeys d.keys))).length : Int)
        · simp only [get_graph, hg, hm, if_pos hlt, exportRefIntegrity]
          rw [List.all_eq_true]
          intro e he
          exact (List.mem_filter.mp he).2
        · simp only [get_graph, hg, hm, if_neg hlt, exportRefIntegrity]
          rw [List.all_eq_true]
          intro e he
          simp only [edgesWellFormed, hg, List.all_eq_true] at h
          rcases mapME_endpoints (buildKeys d.keys) g.edges es hm e he with
            ⟨el, hel, hsrc, htgt⟩
          have hwf := h el hel
          rw [materializeNode_ids, hsrc, htgt]
          exact hwf

/-- Witness for the amended C1 at a concrete well-formed document. -/
theorem graph_export_ref_integrity_wit :
    edgesWellFormed (some docWf) = true
    ∧ exportRefIntegrity (get_graph (some docWf) 300) = true :=
  ⟨by decide, graph_export_ref_integrity (some docWf) 300 (by decide)⟩

/-- Counterexample to C4: with nodes `[B, A, C]`, a self-loop on `A`,
an edge `B → C` and `limit = 1`, the code's degree dict gives `A` degree
2 (a self-loop adds 1 at its source id and 1 at its target id) so the
export keeps `["A"]`, while under the claim's degree definition — the
count of edges in which the node appears as source or target — all
three nodes have degree 1 and the stable sort keeps `["B"]`. -/
theorem graph_prune_selfloop_cex :
    exportNodeIds (get_graph (some docC4) 1) = ["A"]
    ∧ claimPrunedIds docC4 1 = ["B"] := by decide

/-- C4 as amended: when the parsed node count exceeds a nonnegative
caller-supplied limit, the export keeps exactly the first `limit` nodes
after a stable descending sort by degree, where degree counts each edge
once per endpoint occurrence — so a self-loop contributes 2 to its node
— with ties broken by original node order; the exported node set size
is at most `limit`; and a node whose degree strictly exceeds every
other node's degree is retained whenever `limit ≥ 1`. -/
theorem graph_prune_top_degree (d : GraphMLDoc) (g : GGraphEl)
    (limit : Int) (es : List GraphEdge)
    (hg : d.graph = some g)
    (hes : mapME (materializeEdge (buildKeys d.keys)) g.edges = Except.ok es)
    (h0 : 0 ≤ limit)
    (hlt : limit < ((g.nodes.map (materializeNode (buildKeys d.keys))).length : Int)) :
    exportNodeIds (get_graph (some d) limit)
      = ((stSort (degLe (fun n => degreeOf es n.id))
            (g.nodes.map (materializeNode (buildKeys d.keys)))).take limit.toNat).map
          (fun n => n.id)
    ∧ (exportNodeIds (get_graph (some d) limit)).length ≤ limit.toNat
    ∧ (∀ nst ∈ g.nodes.map (materializeNode (buildKeys d.keys)),
        (∀ m ∈ g.nodes.map (materializeNode (buildKeys d.keys)),
            m.id ≠ nst.id → degreeOf es m.id < degreeOf es nst.id) →
        1 ≤ limit →
        nst.id ∈ exportNodeIds (get_graph (some d) limit)) := by
  have hpt : pyTake limit (stSort (degLe (fun n => degreeOf es n.id))
      (g.nodes.map (materializeNode (buildKeys d.keys))))
      = (stSort (degLe (fun n => degreeOf es n.id))
          (g.nodes.map (materializeNode (buildKeys d.keys)))).take limit.toNat := by
    simp [pyTake, h0]
  have hout : exportNodeIds (get_graph (some d) limit)
      = ((stSort (degLe (fun n => degreeOf es n.id))
            (g.nodes.map (materializeNode (buildKeys d.keys)))).take limit.toNat).map
          (fun n => n.id) := by
    simp only [get_graph, hg, hes, if_pos hlt, exportNodeIds]
    rw [hpt]
  refine ⟨hout, ?_, ?_⟩
  · rw [hout, List.length_map, List.length_take]
    exact min_le_left _ _
  · intro nst hmem hmax hlim
    have hlenA : (stSort (degLe (fun n => degreeOf es n.id))
        (g.nodes.map (materializeNode (buildKeys d.keys)))).length
        = (g.nodes.map (materializeNode (buildKeys d.keys))).length :=
      length_stSort _ _
    have hApos : 0 < (g.nodes.map (materializeNode (buildKeys d.keys))).length := by
      have h1 : (0 : Int) < ((g.nodes.map (materializeNode (buildKeys d.keys))).length : Int) :=
        lt_of_le_of_lt h0 hlt
      exact_mod_cast h1
    have hnonempty : stSort (degLe (fun n => degreeOf es n.id))
        (g.nodes.map (materializeNode (buildKeys d.keys))) ≠ [] := by
      intro hnil
      rw [hnil] at hlenA
      simp only [List.length_nil] at hlenA
      omega
    obtain ⟨hh, t, hcons⟩ := List.exists_cons_of_ne_nil hnonempty
    have hpw := pairwise_stSort (fun n => degreeOf es n.id)
      (g.nodes.map (materializeNode (buildKeys d.keys)))
    have hhead : ∀ x ∈ t, degreeOf es x.id ≤ degreeOf es hh.id := by
      rw [hcons] at hpw
      exact (List.pairwise_cons.mp hpw).1
    have hnst_in : nst ∈ stSort (degLe (fun n => degreeOf es n.id))
        (g.nodes.map (materializeNode (buildKeys d.keys))) :=
      (mem_stSort _ _ _).mpr hmem
    have hh_inA : hh ∈ g.nodes.map (materializeNode (buildKeys d.keys)) := by
      apply (mem_stSort _ _ _).mp
      rw [hcons]
      exact List.mem_cons_self _ _
    have hhid : hh.id = nst.id := by
      by_contra hne
      have h1 := hmax hh hh_inA hne
      rw [hcons] at hnst_in
      rcases List.mem_cons.mp hnst_in with rfl | hin
      · exact hne rfl
      · have h2 := hhead nst hin
        omega
    have hk : limit.toNat = (limit.toNat - 1) + 1 := by omega
    have hmemtake : hh ∈ (stSort (degLe (fun n => degreeOf es n.id))
        (g.nodes.map (materializeNode (buildKeys d.keys)))).take limit.toNat := by
      rw [hcons, hk, List.take_succ_cons]
      exact List.mem_cons_self _ _
    rw [hout]
    exact hhid ▸ List.mem_map_of_mem (fun n => n.id) hmemtake

/-- Witness for the amended C4 at the concrete pruning instance
`docC4` with `limit = 1`. -/
theorem graph_prune_top_degree_wit :
    (0 : Int) ≤ 1
    ∧ (1 : Int) < ((gC4.nodes.map (materializeNode (buildKeys docC4.keys))).length : Int)
    ∧ (exportNodeIds (get_graph (some docC4) 1)).length ≤ (1 : Int).toNat :=
  ⟨by decide, by decide,
   (graph_prune_top_degree docC4 gC4 1 esC4 rfl rfl (by decide) (by decide)).2.1⟩

end Obsirag

